import Mathlib

/-!
Shallow embedding of the paged KV-cache subsystem exercised by
`src/append_paged_kvcache.py`.

The script itself only fixes configuration constants, builds the page-table
metadata, and invokes three library operations (`get_seq_lens`,
`get_batch_indices_positions`, `append_paged_kv_cache`).  The library code is
not part of this repository, so those three operations are modelled from the
spec (sections 3, 4.2, 4.3 and 7); the constants and the derived metadata are
translated directly from the script.
-/

namespace PagedKV

/-- Number of KV heads configured by the script (`num_kv_heads = 4`). -/
def num_kv_heads : Nat := 4

/-- Dimension of each head configured by the script (`head_dim = 128`). -/
def head_dim : Nat := 128

/-- Tokens stored per page (`page_size = 16`). -/
def page_size : Nat := 16

/-- Length already cached for the single sequence (`current_seq_len = 4096`). -/
def current_seq_len : Nat := 4096

/-- Number of tokens appended in one batched call (`nnz_kv = 256`). -/
def nnz_kv : Nat := 256

/-- Prospective total length (`total_seq_len = current_seq_len + nnz_kv`). -/
def total_seq_len : Nat := current_seq_len + nnz_kv

/-- Pages needed for the prospective total length, rounded up
(`num_pages_needed = (total_seq_len + page_size - 1) // page_size`). -/
def num_pages_needed : Nat := (total_seq_len + page_size - 1) / page_size

/-- Capacity of the shared page pool (`max_num_pages = 60000`). -/
def max_num_pages : Nat := 60000

/-- Page-table index pointer built by the script: the single request owns
`kv_page_indices[0:num_pages_needed]` (`kv_page_indptr = [0, num_pages_needed]`). -/
def kv_page_indptr : List Nat := [0, num_pages_needed]

/-- Fill length of the last page as set by the script (`kv_last_page_len = [0]`,
the comment reads it as: last page full, next token starts a fresh page). -/
def kv_last_page_len : List Nat := [0]

/-- Append index pointer built by the script: one request appending `nnz_kv`
tokens (`kv_append_indptr = [0, nnz_kv]`). -/
def kv_append_indptr : List Nat := [0, nnz_kv]

/-- Page indices the script assigns to the sequence: the first
`num_pages_needed` entries of a permutation of `0 .. max_num_pages - 1`
(`kv_page_indices = randperm(max_num_pages)[:num_pages_needed]`; the
permutation itself is random, so it is a parameter here). -/
def kv_page_indices (perm : List Nat) : List Nat :=
  perm.take num_pages_needed

/-- Modelled from the spec: `flashinfer.get_seq_lens` is absent from the
repository.  Spec section 3: `seq_len[i] = (indptr[i+1] - indptr[i] - 1) *
page_size + last_page_len[i]` for sequences with at least one page, and 0 for
a sequence owning zero pages. -/
def get_seq_lens : List Nat → List Nat → Nat → List Nat
  | a :: b :: rest, L :: ls, ps =>
      (if b - a = 0 then 0 else (b - a - 1) * ps + L) :: get_seq_lens (b :: rest) ls ps
  | _, _, _ => []

/-- Checks the Batch Page Table invariant of spec section 3: the index-pointer
array is monotonically non-decreasing. -/
def monotone_indptr : List Nat → Bool
  | a :: b :: rest => a ≤ b && monotone_indptr (b :: rest)
  | _ => true

/-- Linear search for the segment of an index-pointer array covering token
rank `r`: returns the first `i` with `ip[i] ≤ r < ip[i+1]`, paired with the
segment start `ip[i]`, or `none` when no segment covers `r`. -/
def findSeg : List Nat → Nat → Option (Nat × Nat)
  | a :: b :: rest, r =>
      if a ≤ r ∧ r < b then some (0, a)
      else (findSeg (b :: rest) r).map (fun q => (q.1 + 1, q.2))
  | _, _ => none

/-- Resolves a single token rank `r` to its `(batch_index, position)` pair,
per spec section 4.2: `batch_index` is the unique `i` with
`append_indptr[i] ≤ r < append_indptr[i+1]` and `position` is
`seq_len[i] + (r - append_indptr[i])`. -/
def resolveOne (ip sl : List Nat) (r : Nat) : Option (Nat × Nat) :=
  (findSeg ip r).bind fun q => (sl[q.1]?).map fun L => (q.1, L + (r - q.2))

/-- Resolves all token ranks `0 .. n - 1` in order; `none` as soon as any rank
is uncovered (the whole batch is rejected, never truncated). -/
def resolveAll (ip sl : List Nat) : Nat → Option (List (Nat × Nat))
  | 0 => some []
  | n + 1 =>
      match resolveAll ip sl n, resolveOne ip sl n with
      | some l, some q => some (l ++ [q])
      | _, _ => none

/-- Modelled from the spec: `flashinfer.get_batch_indices_positions` is absent
from the repository.  Spec sections 4.2 and 7: produce per-token batch indices
and positions, and reject the batch as MalformedBatch (here `none`) when
`append_indptr` is not monotonically non-decreasing or some token rank is not
covered by any half-open range. -/
def get_batch_indices_positions (append_indptr seq_len : List Nat) (nnz : Nat) :
    Option (List Nat × List Nat) :=
  if monotone_indptr append_indptr then
    match resolveAll append_indptr seq_len nnz with
    | some l => some (l.map Prod.fst, l.map Prod.snd)
    | none => none
  else none

/-- Sequence lengths the script derives from its page table
(`seq_lens = flashinfer.get_seq_lens(kv_page_indptr, kv_last_page_len, page_size)`). -/
def seq_lens : List Nat := get_seq_lens kv_page_indptr kv_last_page_len page_size

/-- The script's position-resolution call
(`flashinfer.get_batch_indices_positions(kv_append_indptr, seq_lens, nnz_kv)`). -/
def batchPositions : Option (List Nat × List Nat) :=
  get_batch_indices_positions kv_append_indptr seq_lens nnz_kv

/-- Per-token batch indices the script passes to the append engine. -/
def batch_indices : List Nat := (batchPositions.getD ([], [])).1

/-- Per-token positions the script passes to the append engine. -/
def positions : List Nat := (batchPositions.getD ([], [])).2

/-- The Page Pool, indexed by physical page and slot offset.  A slot stores
the whole K/V payload of one token (all heads, all dims), abstracted as one
value of type `α`, since the engine always writes a slot wholesale. -/
abbrev Pool (α : Type) := Nat → Nat → α

/-- Writes one token's payload into the pool at target `(physical_page,
slot_offset)`; every other slot is untouched. -/
def writeSlot {α : Type} (pool : Pool α) (t : Nat × Nat) (v : α) : Pool α :=
  fun pg s => if pg = t.1 ∧ s = t.2 then v else pool pg s

/-- Performs the scatter-write of a list of resolved `(target, payload)`
pairs, in list order. -/
def writeAll {α : Type} : Pool α → List ((Nat × Nat) × α) → Pool α
  | pool, [] => pool
  | pool, (t, v) :: rest => writeAll (writeSlot pool t v) rest

/-- Modelled from the spec, section 4.3 steps 1-2: resolve one token with
batch index `i` and position `p` to its physical target.  `page_slot = p /
pageSize`, `slot_offset = p % pageSize`, `physical_page =
pages[ip[i] + page_slot]`; fails (OutOfRange / CapacityExceeded) when
`ip[i] + page_slot ≥ ip[i+1]`, and fails fatally (OutOfRangeAccess) when the
physical page index falls outside pool bounds. -/
def resolveTarget (pageSize maxPages : Nat) (pages ip : List Nat) (i p : Nat) :
    Option (Nat × Nat) :=
  match ip[i]?, ip[i + 1]? with
  | some lo, some hi =>
      if lo + p / pageSize < hi then
        match pages[lo + p / pageSize]? with
        | some phys => if phys < maxPages then some (phys, p % pageSize) else none
        | none => none
      else none
  | _, _ => none

/-- Resolves every token of a batch to its physical target; `none` when any
token fails, so a failed append never leaves a partially-written state (spec
section 7 propagation policy). -/
def resolveTargets (pageSize maxPages : Nat) (pages ip : List Nat) :
    List (Nat × Nat) → Option (List (Nat × Nat))
  | [] => some []
  | t :: rest =>
      match resolveTarget pageSize maxPages pages ip t.1 t.2,
            resolveTargets pageSize maxPages pages ip rest with
      | some q, some qs => some (q :: qs)
      | _, _ => none

/-- Modelled from the spec: `flashinfer.page.append_paged_kv_cache` is absent
from the repository.  Spec section 4.3: resolve each token's target through
the page table, then scatter-write all payloads into the pool.  All detectable
errors surface before any write (spec section 7).  `lpl` is the engine's
`last_page_len` input; the spec's write path (steps 1-3) does not consume it. -/
def append_paged_kv_cache {α : Type} (pageSize maxPages : Nat) (kvs : List α)
    (bis poss : List Nat) (pool : Pool α) (pages ip lpl : List Nat) :
    Option (Pool α) :=
  (resolveTargets pageSize maxPages pages ip (bis.zip poss)).map
    fun ts => writeAll pool (ts.zip kvs)

/-- Value stored at a target after a list of writes: the payload of the last
write aimed at it, if any. -/
def lookupLast {α : Type} : List ((Nat × Nat) × α) → Nat × Nat → Option α
  | [], _ => none
  | (t, v) :: rest, q =>
      match lookupLast rest q with
      | some w => some w
      | none => if q = t then some v else none

/-- One complete execution of the append engine, with tokens processed in an
arbitrary order (spec section 5: no required ordering between tokens): some
permutation of the resolved writes is applied to the pool. -/
def AppendExec {α : Type} (pageSize maxPages : Nat) (kvs : List α)
    (bis poss : List Nat) (pages ip : List Nat) (pool q : Pool α) : Prop :=
  ∃ ts l, resolveTargets pageSize maxPages pages ip (bis.zip poss) = some ts ∧
    (ts.zip kvs).Perm l ∧ q = writeAll pool l

/-- Entry `i` of `get_seq_lens` is determined by `ip[i]`, `ip[i+1]` and
`lpl[i]` exactly as the spec's formula prescribes. -/
theorem get_seq_lens_getElem? (ps : Nat) (i : Nat) (ip lpl : List Nat) (a b L : Nat)
    (ha : ip[i]? = some a) (hb : ip[i + 1]? = some b) (hL : lpl[i]? = some L) :
    (get_seq_lens ip lpl ps)[i]? =
      some (if b - a = 0 then 0 else (b - a - 1) * ps + L) := by
  induction i generalizing ip lpl with
  | zero =>
    cases ip with
    | nil => simp at ha
    | cons a0 tl =>
      cases tl with
      | nil => simp at hb
      | cons b0 rest =>
        cases lpl with
        | nil => simp at hL
        | cons L0 ls =>
          simp only [List.getElem?_cons_zero, Option.some.injEq] at ha hL
          simp only [Nat.zero_add, List.getElem?_cons_succ, List.getElem?_cons_zero,
            Option.some.injEq] at hb
          subst ha hb hL
          simp [get_seq_lens]
  | succ i IH =>
    cases ip with
    | nil => simp at ha
    | cons a0 tl =>
      cases tl with
      | nil =>
        simp only [List.getElem?_cons_succ] at hb
        simp at hb
      | cons b0 rest =>
        cases lpl with
        | nil => simp at hL
        | cons L0 ls =>
          simp only [List.getElem?_cons_succ] at ha hb hL
          simpa [get_seq_lens] using
            IH (b0 :: rest) ls ha (by simpa using hb) hL

/-- C2: for every page table (`kv_page_indptr`, `kv_last_page_len`) and page
size, `get_seq_lens` returns, for each sequence `i` owning at least one page,
the length `(ip[i+1] - ip[i] - 1) * page_size + last_page_len[i]`, and 0 for a
sequence owning zero pages. -/
theorem get_seq_lens_spec (ip lpl : List Nat) (ps i a b L : Nat)
    (ha : ip[i]? = some a) (hb : ip[i + 1]? = some b) (hL : lpl[i]? = some L) :
    (a < b → (get_seq_lens ip lpl ps)[i]? = some ((b - a - 1) * ps + L)) ∧
    (b = a → (get_seq_lens ip lpl ps)[i]? = some 0) := by
  have h := get_seq_lens_getElem? ps i ip lpl a b L ha hb hL
  refine ⟨fun hab => ?_, fun hba => ?_⟩
  · rw [h, if_neg (by omega : ¬(b - a = 0))]
  · rw [h, if_pos (by omega : b - a = 0)]

/-- Witness for C2 on a concrete table: sequence 0 owns one page
(`[0, 2, 2]`, lengths `(2-0-1)*16+5 = 21`), sequence 1 owns zero pages. -/
theorem get_seq_lens_spec_witness :
    ([0, 2, 2] : List Nat)[0]? = some 0 ∧
    (get_seq_lens [0, 2, 2] [5, 7] 16)[0]? = some 21 ∧
    (get_seq_lens [0, 2, 2] [5, 7] 16)[1]? = some 0 :=
  ⟨rfl,
   (get_seq_lens_spec [0, 2, 2] [5, 7] 16 0 0 2 5 rfl rfl rfl).1 (by decide),
   (get_seq_lens_spec [0, 2, 2] [5, 7] 16 1 2 2 7 rfl rfl rfl).2 rfl⟩

set_option maxRecDepth 100000 in
/-- C3 (code bug): in the script's configured run the derived sequence length
is 4336, not the intended 4096 — `get_seq_lens` is fed the page table already
extended to `num_pages_needed = 272` pages with `last_page_len = 0`, so it
reports `(272 - 1) * 16 = 4336` — and the resolved positions are
`4336 .. 4591`, not the `4096 .. 4351` the spec scenario states. -/
theorem script_positions_diverge :
    seq_lens = [4336] ∧
    batchPositions =
      some (List.replicate nnz_kv 0, (List.range nnz_kv).map (fun r => 4336 + r)) ∧
    positions[0]? = some 4336 ∧ 4336 ≠ current_seq_len :=
  ⟨by decide, by decide, by decide, by decide⟩

/-- A batch containing one token whose target resolution fails is rejected as
a whole. -/
theorem resolveTargets_eq_none_of_mem (pageSize maxPages : Nat) (pages ip : List Nat)
    (l : List (Nat × Nat)) (t : Nat × Nat) (hmem : t ∈ l)
    (hfail : resolveTarget pageSize maxPages pages ip t.1 t.2 = none) :
    resolveTargets pageSize maxPages pages ip l = none := by
  induction l with
  | nil => cases hmem
  | cons hd tl IH =>
    rcases List.mem_cons.mp hmem with h | h
    · subst h
      simp [resolveTargets, hfail]
    · cases hfirst : resolveTarget pageSize maxPages pages ip hd.1 hd.2 <;>
        simp [resolveTargets, hfirst, IH h]

set_option maxRecDepth 100000 in
/-- C4 (code bug): the page table the script hands to the append engine does
not cover every position the engine is asked to write.  Token rank 16 resolves
to position 4352, whose page slot is `4352 / 16 = 272`, and
`kv_page_indptr[0] + 272 ≥ kv_page_indptr[1] = 272`, so the OutOfRange
(CapacityExceeded) branch fires and the whole invocation fails — for every
page-index assignment, every payload list and every initial pool. -/
theorem script_append_hits_out_of_range {α : Type} (pages : List Nat) (kvs : List α)
    (pool : Pool α) :
    append_paged_kv_cache page_size max_num_pages kvs batch_indices positions pool
      pages kv_page_indptr kv_last_page_len = none := by
  have hmem : ((0, 4352) : Nat × Nat) ∈ batch_indices.zip positions := by decide
  have hfail :
      resolveTarget page_size max_num_pages pages kv_page_indptr 0 4352 = none := rfl
  have h := resolveTargets_eq_none_of_mem page_size max_num_pages pages kv_page_indptr
    (batch_indices.zip positions) (0, 4352) hmem hfail
  simp [append_paged_kv_cache, h]

/-- The tail of a monotone index-pointer array is monotone. -/
theorem monotone_indptr_tail (a : Nat) (tl : List Nat)
    (h : monotone_indptr (a :: tl) = true) : monotone_indptr tl = true := by
  cases tl with
  | nil => rfl
  | cons b rest =>
    simp only [monotone_indptr, Bool.and_eq_true] at h
    exact h.2

/-- In a monotone index-pointer array every entry dominates the head. -/
theorem monotone_indptr_le_head (h0 : Nat) (tl : List Nat) (j x : Nat)
    (hm : monotone_indptr (h0 :: tl) = true) (hx : (h0 :: tl)[j]? = some x) :
    h0 ≤ x := by
  induction j generalizing h0 tl with
  | zero =>
    simp only [List.getElem?_cons_zero, Option.some.injEq] at hx
    omega
  | succ j IH =>
    cases tl with
    | nil => simp at hx
    | cons b rest =>
      simp only [List.getElem?_cons_succ] at hx
      have h1 : h0 ≤ b := by
        simp only [monotone_indptr, Bool.and_eq_true, decide_eq_true_eq] at hm
        exact hm.1
      have h2 := IH b rest (monotone_indptr_tail h0 (b :: rest) hm) hx
      omega

/-- Soundness of the segment search: a hit `(i, a)` really is a half-open
range `[ip[i], ip[i+1])` containing the rank, with `a = ip[i]`. -/
theorem findSeg_some (ip : List Nat) (r i a : Nat) (h : findSeg ip r = some (i, a)) :
    ip[i]? = some a ∧ a ≤ r ∧ ∃ b, ip[i + 1]? = some b ∧ r < b := by
  induction ip generalizing i with
  | nil => simp [findSeg] at h
  | cons x tl IH =>
    cases tl with
    | nil => simp [findSeg] at h
    | cons y rest =>
      rw [findSeg] at h
      split at h
      · rename_i hc
        simp only [Option.some.injEq, Prod.mk.injEq] at h
        obtain ⟨hi, ha⟩ := h
        subst hi ha
        exact ⟨by simp, hc.1, y, by simp, hc.2⟩
      · cases hf : findSeg (y :: rest) r with
        | none => rw [hf] at h; simp at h
        | some q =>
          rw [hf] at h
          simp only [Option.map_some', Option.some.injEq, Prod.mk.injEq] at h
          obtain ⟨hi, ha⟩ := h
          subst hi ha
          obtain ⟨hq, hqr, b, hb, hrb⟩ := IH q.1 hf
          exact ⟨by simpa using hq, hqr, b, by simpa using hb, hrb⟩

/-- Completeness of the segment search under monotonicity: the search finds
exactly the covering segment, making the covering index unique. -/
theorem findSeg_eq_of_covers (ip : List Nat) (r j x y : Nat)
    (hm : monotone_indptr ip = true)
    (hx : ip[j]? = some x) (hy : ip[j + 1]? = some y)
    (hxr : x ≤ r) (hry : r < y) :
    findSeg ip r = some (j, x) := by
  induction j generalizing ip with
  | zero =>
    cases ip with
    | nil => simp at hx
    | cons a tl =>
      cases tl with
      | nil => simp at hy
      | cons b rest =>
        simp only [List.getElem?_cons_zero, Option.some.injEq] at hx
        simp only [Nat.zero_add, List.getElem?_cons_succ, List.getElem?_cons_zero,
          Option.some.injEq] at hy
        subst hx hy
        rw [findSeg, if_pos ⟨hxr, hry⟩]
  | succ j IH =>
    cases ip with
    | nil => simp at hx
    | cons a tl =>
      cases tl with
      | nil =>
        simp only [List.getElem?_cons_succ] at hx
        simp at hx
      | cons b rest =>
        simp only [List.getElem?_cons_succ] at hx hy
        have hmt := monotone_indptr_tail a (b :: rest) hm
        have hbx : b ≤ x := monotone_indptr_le_head b rest j x hmt hx
        have hnotc : ¬(a ≤ r ∧ r < b) := by omega
        rw [findSeg, if_neg hnotc, IH (b :: rest) hmt hx (by simpa using hy)]
        rfl

/-- A successful `resolveAll` resolves every rank below `n`, in rank order. -/
theorem resolveAll_some (ip sl : List Nat) (n : Nat) (l : List (Nat × Nat))
    (h : resolveAll ip sl n = some l) :
    l.length = n ∧ ∀ r, r < n → l[r]? = resolveOne ip sl r := by
  induction n generalizing l with
  | zero =>
    simp only [resolveAll, Option.some.injEq] at h
    subst h
    exact ⟨rfl, fun r hr => absurd hr (Nat.not_lt_zero r)⟩
  | succ n IH =>
    rw [resolveAll] at h
    cases h1 : resolveAll ip sl n with
    | none => rw [h1] at h; simp at h
    | some l0 =>
      rw [h1] at h
      cases h2 : resolveOne ip sl n with
      | none => rw [h2] at h; simp at h
      | some q =>
        rw [h2] at h
        simp only [Option.some.injEq] at h
        subst h
        obtain ⟨hlen, hget⟩ := IH l0 h1
        refine ⟨by simp [hlen], fun r hr => ?_⟩
        rcases Nat.lt_succ_iff_lt_or_eq.mp hr with hlt | heq
        · rw [List.getElem?_append_left (by omega), hget r hlt]
        · subst heq
          have hq : (l0 ++ [q])[r]? = some q := by
            rw [← hlen]
            exact List.getElem?_concat_length l0 q
          rw [hq, h2]

/-- A rank that fails to resolve makes the whole batch resolution fail. -/
theorem resolveAll_eq_none (ip sl : List Nat) (n r : Nat) (hr : r < n)
    (h : resolveOne ip sl r = none) : resolveAll ip sl n = none := by
  induction n with
  | zero => exact absurd hr (Nat.not_lt_zero r)
  | succ n IH =>
    rw [resolveAll]
    rcases Nat.lt_succ_iff_lt_or_eq.mp hr with hlt | heq
    · rw [IH hlt]
    · subst heq
      rw [h]
      cases resolveAll ip sl r <;> rfl

/-- C1: for every well-formed append batch (monotone `append_indptr` starting
at 0) and per-sequence lengths, position resolution assigns token rank `r`
the unique batch index `i` with `append_indptr[i] ≤ r < append_indptr[i+1]`
and the position `seq_len[i] + (r - append_indptr[i])`, so each sequence's
resolved positions are the contiguous run starting at its current length. -/
theorem get_batch_indices_positions_spec (ip sl : List Nat) (nnz : Nat)
    (bis poss : List Nat) (r : Nat) (h0 : ip[0]? = some 0)
    (hres : get_batch_indices_positions ip sl nnz = some (bis, poss))
    (hr : r < nnz) :
    ∃ i a b L, bis[r]? = some i ∧
      ip[i]? = some a ∧ ip[i + 1]? = some b ∧ a ≤ r ∧ r < b ∧
      (∀ j x y, ip[j]? = some x → ip[j + 1]? = some y → x ≤ r → r < y → j = i) ∧
      sl[i]? = some L ∧ poss[r]? = some (L + (r - a)) := by
  rw [get_batch_indices_positions] at hres
  split at hres
  case isFalse => simp at hres
  case isTrue hm =>
    cases hall : resolveAll ip sl nnz with
    | none => rw [hall] at hres; simp at hres
    | some l =>
      rw [hall] at hres
      simp only [Option.some.injEq, Prod.mk.injEq] at hres
      obtain ⟨hb, hp⟩ := hres
      subst hb hp
      obtain ⟨hlen, hget⟩ := resolveAll_some ip sl nnz l hall
      have hrl : r < l.length := by omega
      have hl : resolveOne ip sl r = some (l.get ⟨r, hrl⟩) := by
        rw [← hget r hr]
        exact List.getElem?_eq_getElem hrl
      simp only [resolveOne] at hl
      cases hf : findSeg ip r with
      | none => rw [hf] at hl; simp at hl
      | some q =>
        rw [hf, Option.some_bind] at hl
        cases hsl : sl[q.1]? with
        | none => rw [hsl] at hl; simp at hl
        | some L =>
          rw [hsl, Option.map_some'] at hl
          have hlr : l[r]? = some (q.1, L + (r - q.2)) := by
            rw [List.getElem?_eq_getElem hrl]
            exact congrArg some (Option.some.inj hl).symm
          obtain ⟨hq, hqr, b, hbq, hrb⟩ := findSeg_some ip r q.1 q.2 hf
          refine ⟨q.1, q.2, b, L, ?_, hq, hbq, hqr, hrb, ?_, hsl, ?_⟩
          · simp only [List.getElem?_map, hlr, Option.map_some']
          · intro j x y hx hy hxr hry
            have hfind := findSeg_eq_of_covers ip r j x y hm hx hy hxr hry
            rw [hf] at hfind
            simp only [Option.some.injEq] at hfind
            exact (congrArg Prod.fst hfind).symm
          · simp only [List.getElem?_map, hlr, Option.map_some']

/-- Witness for C1 on a concrete batch: two sequences of current lengths 10
and 5, appending two tokens to the first and one to the second; token rank 2
resolves to batch index 1 with position `5 + (2 - 2) = 5`. -/
theorem get_batch_indices_positions_spec_witness :
    get_batch_indices_positions [0, 2, 3] [10, 5] 3 = some ([0, 0, 1], [10, 11, 5]) ∧
    ∃ i a b L, ([0, 0, 1] : List Nat)[2]? = some i ∧
      ([0, 2, 3] : List Nat)[i]? = some a ∧
      ([0, 2, 3] : List Nat)[i + 1]? = some b ∧ a ≤ 2 ∧ 2 < b ∧
      (∀ j x y, ([0, 2, 3] : List Nat)[j]? = some x →
        ([0, 2, 3] : List Nat)[j + 1]? = some y → x ≤ 2 → 2 < y → j = i) ∧
      ([10, 5] : List Nat)[i]? = some L ∧
      ([10, 11, 5] : List Nat)[2]? = some (L + (2 - a)) :=
  ⟨by decide,
   get_batch_indices_positions_spec [0, 2, 3] [10, 5] 3 [0, 0, 1] [10, 11, 5] 2
     (by decide) (by decide) (by decide)⟩

/-- C8: a batch whose `append_indptr` is not monotonically non-decreasing, or
that has a token rank not covered by any half-open range, is rejected at the
boundary with a malformed-batch error (`none`): no positions are produced and
nothing is silently truncated. -/
theorem malformed_batch_rejected (ip sl : List Nat) (nnz : Nat)
    (h : monotone_indptr ip = false ∨
      ∃ r, r < nnz ∧ ∀ j x y, ip[j]? = some x → ip[j + 1]? = some y →
        ¬(x ≤ r ∧ r < y)) :
    get_batch_indices_positions ip sl nnz = none := by
  rcases h with hm | ⟨r, hr, hunc⟩
  · simp [get_batch_indices_positions, hm]
  · rw [get_batch_indices_positions]
    split
    · have hone : resolveOne ip sl r = none := by
        cases hf : findSeg ip r with
        | none => simp [resolveOne, hf]
        | some q =>
          obtain ⟨hq, hqr, b, hb, hrb⟩ := findSeg_some ip r q.1 q.2 hf
          exact absurd ⟨hqr, hrb⟩ (hunc q.1 q.2 b hq hb)
      rw [resolveAll_eq_none ip sl nnz r hr hone]
    · rfl

/-- Witness for C8: `[0, 2, 1]` is not monotonically non-decreasing, so the
batch is rejected. -/
theorem malformed_batch_rejected_witness :
    monotone_indptr [0, 2, 1] = false ∧
    get_batch_indices_positions [0, 2, 1] [3] 1 = none :=
  ⟨by decide, malformed_batch_rejected [0, 2, 1] [3] 1 (Or.inl (by decide))⟩

/-- Value of a slot after a scatter-write: the payload of the last write
aimed at it, or the old pool value if no write targeted it. -/
theorem writeAll_apply {α : Type} (pool : Pool α) (l : List ((Nat × Nat) × α))
    (pg s : Nat) :
    writeAll pool l pg s = (lookupLast l (pg, s)).getD (pool pg s) := by
  induction l generalizing pool with
  | nil => rfl
  | cons hd tl IH =>
    cases hd with
    | mk t v =>
      rw [writeAll, IH]
      cases h : lookupLast tl (pg, s) with
      | some w => simp [lookupLast, h]
      | none =>
        simp only [lookupLast, h]
        by_cases hq : (pg, s) = t
        · subst hq
          simp [writeSlot]
        · rw [if_neg hq]
          simp only [Option.getD_none, writeSlot]
          rw [if_neg (fun hcc : pg = t.1 ∧ s = t.2 => hq (Prod.ext hcc.1 hcc.2))]

/-- A slot no write targets has no last write. -/
theorem lookupLast_eq_none {α : Type} (l : List ((Nat × Nat) × α)) (q : Nat × Nat)
    (h : q ∉ l.map Prod.fst) : lookupLast l q = none := by
  induction l with
  | nil => rfl
  | cons hd tl IH =>
    cases hd with
    | mk t v =>
      simp only [List.map_cons, List.mem_cons, not_or] at h
      simp only [lookupLast, IH h.2]
      rw [if_neg h.1]

/-- With pairwise-distinct targets, the last (indeed only) write to a target
is the payload it carried. -/
theorem lookupLast_eq_some {α : Type} (l : List ((Nat × Nat) × α)) (t : Nat × Nat)
    (v : α) (hnd : (l.map Prod.fst).Nodup) (hmem : (t, v) ∈ l) :
    lookupLast l t = some v := by
  induction l with
  | nil => cases hmem
  | cons hd tl IH =>
    cases hd with
    | mk t0 v0 =>
      simp only [List.map_cons, List.nodup_cons] at hnd
      rcases List.mem_cons.mp hmem with heq | hmem2
      · injection heq with h1 h2
        subst h1 h2
        rw [lookupLast, lookupLast_eq_none tl t hnd.1]
        simp
      · rw [lookupLast, IH hnd.2 hmem2]

/-- Writes to distinct targets commute. -/
theorem writeSlot_comm {α : Type} (pool : Pool α) (t1 t2 : Nat × Nat) (v1 v2 : α)
    (hne : t1 ≠ t2) :
    writeSlot (writeSlot pool t1 v1) t2 v2 = writeSlot (writeSlot pool t2 v2) t1 v1 := by
  funext pg s
  simp only [writeSlot]
  by_cases h2 : pg = t2.1 ∧ s = t2.2
  · have h1 : ¬(pg = t1.1 ∧ s = t1.2) := fun hcc =>
      hne (Prod.ext (hcc.1.symm.trans h2.1) (hcc.2.symm.trans h2.2))
    rw [if_pos h2, if_neg h1, if_pos h2]
  · by_cases h1 : pg = t1.1 ∧ s = t1.2
    · rw [if_neg h2, if_pos h1, if_pos h1]
    · rw [if_neg h2, if_neg h1, if_neg h1, if_neg h2]

/-- With pairwise-distinct targets, the scatter-write result is independent of
the order tokens are processed in. -/
theorem writeAll_perm {α : Type} {l1 l2 : List ((Nat × Nat) × α)} (hp : l1.Perm l2) :
    (l1.map Prod.fst).Nodup → ∀ pool : Pool α, writeAll pool l1 = writeAll pool l2 := by
  induction hp with
  | nil => exact fun _ _ => rfl
  | cons x h IH =>
    intro hnd pool
    cases x with
    | mk t v =>
      simp only [List.map_cons, List.nodup_cons] at hnd
      rw [writeAll, writeAll]
      exact IH hnd.2 (writeSlot pool t v)
  | swap x y l =>
    intro hnd pool
    cases x with
    | mk t1 v1 =>
      cases y with
      | mk t2 v2 =>
        simp only [List.map_cons, List.nodup_cons, List.mem_cons, not_or] at hnd
        have hne : t2 ≠ t1 := hnd.1.1
        simp only [writeAll]
        rw [writeSlot_comm pool t2 t1 v2 v1 hne]
  | trans h1 h2 IH1 IH2 =>
    intro hnd pool
    exact (IH1 hnd pool).trans (IH2 ((h1.map Prod.fst).nodup_iff.mp hnd) pool)

/-- Re-applying the same scatter-write is a no-op: every slot already holds
the last value written to it. -/
theorem writeAll_writeAll {α : Type} (pool : Pool α) (l : List ((Nat × Nat) × α)) :
    writeAll (writeAll pool l) l = writeAll pool l := by
  funext pg s
  rw [writeAll_apply, writeAll_apply]
  cases h : lookupLast l (pg, s) with
  | none => simp [writeAll_apply, h]
  | some w => rfl

/-- Every physical page a token resolves to comes from the flat page-index
list. -/
theorem resolveTarget_mem (pageSize maxPages : Nat) (pages ip : List Nat)
    (i p : Nat) (q : Nat × Nat)
    (h : resolveTarget pageSize maxPages pages ip i p = some q) :
    q.1 ∈ pages := by
  rw [resolveTarget] at h
  split at h
  · rename_i lo hi
    split at h
    · split at h
      · rename_i phys hpg
        split at h
        · simp only [Option.some.injEq] at h
          rw [← h]
          exact List.getElem?_mem hpg
        · exact absurd h (by simp)
      · exact absurd h (by simp)
    · exact absurd h (by simp)
  · exact absurd h (by simp)

/-- Every target of a resolved batch addresses a page owned by the batch's
page-index list. -/
theorem resolveTargets_mem (pageSize maxPages : Nat) (pages ip : List Nat)
    (l : List (Nat × Nat)) (ts : List (Nat × Nat))
    (h : resolveTargets pageSize maxPages pages ip l = some ts) :
    ∀ t ∈ ts, t.1 ∈ pages := by
  induction l generalizing ts with
  | nil =>
    simp only [resolveTargets, Option.some.injEq] at h
    subst h
    intro t ht
    cases ht
  | cons hd tl IH =>
    rw [resolveTargets] at h
    cases h1 : resolveTarget pageSize maxPages pages ip hd.1 hd.2 with
    | none => rw [h1] at h; simp at h
    | some q =>
      rw [h1] at h
      cases h2 : resolveTargets pageSize maxPages pages ip tl with
      | none => rw [h2] at h; simp at h
      | some qs =>
        rw [h2] at h
        simp only [Option.some.injEq] at h
        subst h
        intro t ht
        rcases List.mem_cons.mp ht with rfl | htl
        · exact resolveTarget_mem pageSize maxPages pages ip hd.1 hd.2 t h1
        · exact IH qs h2 t htl

/-- A successful append is exactly the scatter-write of the resolved targets
zipped with the payloads. -/
theorem append_eq_writeAll {α : Type} (pageSize maxPages : Nat) (kvs : List α)
    (bis poss : List Nat) (pool q : Pool α) (pages ip lpl : List Nat)
    (ts : List (Nat × Nat))
    (hts : resolveTargets pageSize maxPages pages ip (bis.zip poss) = some ts)
    (hap : append_paged_kv_cache pageSize maxPages kvs bis poss pool pages ip lpl =
      some q) :
    q = writeAll pool (ts.zip kvs) := by
  simp only [append_paged_kv_cache, hts, Option.map_some'] at hap
  exact (Option.some.inj hap).symm

/-- C5: after one append over a batch with pairwise-distinct targets, reading
back each written slot yields exactly the input K/V payload of the token that
targeted it, and the resulting pool is the same for every processing order of
the tokens. -/
theorem append_write_isolation {α : Type} (pageSize maxPages : Nat) (kvs : List α)
    (bis poss : List Nat) (pool q : Pool α) (pages ip lpl : List Nat)
    (ts : List (Nat × Nat)) (l2 : List ((Nat × Nat) × α))
    (hts : resolveTargets pageSize maxPages pages ip (bis.zip poss) = some ts)
    (hap : append_paged_kv_cache pageSize maxPages kvs bis poss pool pages ip lpl =
      some q)
    (hnd : ts.Nodup) (hlen : ts.length ≤ kvs.length)
    (hperm : (ts.zip kvs).Perm l2) :
    (∀ t v, (t, v) ∈ ts.zip kvs → q t.1 t.2 = v) ∧ writeAll pool l2 = q := by
  have hq := append_eq_writeAll pageSize maxPages kvs bis poss pool q pages ip lpl
    ts hts hap
  have hndfst : ((ts.zip kvs).map Prod.fst).Nodup := by
    rw [List.map_fst_zip ts kvs hlen]
    exact hnd
  constructor
  · intro t v hmem
    rw [hq, writeAll_apply, lookupLast_eq_some (ts.zip kvs) t v hndfst hmem]
    rfl
  · rw [hq]
    exact (writeAll_perm hperm hndfst pool).symm

/-- Witness for C5: two tokens of one sequence land in slots 0 and 1 of page
3; read-back returns payload 7 at slot 0 and the reversed processing order
yields the same pool. -/
theorem append_write_isolation_witness :
    writeAll (fun _ _ => (0 : Int)) [((3, 0), 7), ((3, 1), 9)] 3 0 = 7 ∧
    writeAll (fun _ _ => (0 : Int)) [((3, 1), 9), ((3, 0), 7)] =
      writeAll (fun _ _ => (0 : Int)) [((3, 0), 7), ((3, 1), 9)] :=
  ⟨(append_write_isolation 2 10 [7, 9] [0, 0] [0, 1] (fun _ _ => (0 : Int))
      (writeAll (fun _ _ => (0 : Int)) [((3, 0), 7), ((3, 1), 9)]) [3, 5] [0, 2] [2]
      [(3, 0), (3, 1)] [((3, 1), 9), ((3, 0), 7)] (by decide) rfl (by decide)
      (by decide) (List.Perm.swap ((3, 1), 9) ((3, 0), 7) [])).1 (3, 0) 7
      (by decide),
   (append_write_isolation 2 10 [7, 9] [0, 0] [0, 1] (fun _ _ => (0 : Int))
      (writeAll (fun _ _ => (0 : Int)) [((3, 0), 7), ((3, 1), 9)]) [3, 5] [0, 2] [2]
      [(3, 0), (3, 1)] [((3, 1), 9), ((3, 0), 7)] (by decide) rfl (by decide)
      (by decide) (List.Perm.swap ((3, 1), 9) ((3, 0), 7) [])).2⟩

/-- C6: an append invocation modifies only the slots its tokens target; every
other slot of the pool is unchanged — in particular, for disjoint page-index
assignments, every slot addressed by another sequence's page list is
bit-for-bit identical. -/
theorem append_frame {α : Type} (pageSize maxPages : Nat) (kvs : List α)
    (bis poss : List Nat) (pool q : Pool α) (pages ip lpl : List Nat)
    (ts : List (Nat × Nat))
    (hts : resolveTargets pageSize maxPages pages ip (bis.zip poss) = some ts)
    (hap : append_paged_kv_cache pageSize maxPages kvs bis poss pool pages ip lpl =
      some q) :
    (∀ pg s, (∀ t ∈ ts, (pg, s) ≠ t) → q pg s = pool pg s) ∧
    (∀ others : List Nat, (∀ x ∈ pages, x ∉ others) →
      ∀ pg ∈ others, ∀ s, q pg s = pool pg s) := by
  have hq := append_eq_writeAll pageSize maxPages kvs bis poss pool q pages ip lpl
    ts hts hap
  have hframe : ∀ pg s, (∀ t ∈ ts, (pg, s) ≠ t) → q pg s = pool pg s := by
    intro pg s hnot
    have hnm : (pg, s) ∉ (ts.zip kvs).map Prod.fst := by
      intro hmem
      obtain ⟨⟨t, v⟩, hmem2, heq⟩ := List.mem_map.mp hmem
      exact hnot t (List.of_mem_zip hmem2).1 heq.symm
    rw [hq, writeAll_apply, lookupLast_eq_none (ts.zip kvs) (pg, s) hnm]
    rfl
  refine ⟨hframe, fun others hdis pg hpg s => hframe pg s fun t ht heq => ?_⟩
  have hmem : t.1 ∈ pages :=
    resolveTargets_mem pageSize maxPages pages ip (bis.zip poss) ts hts t ht
  rw [← heq] at hmem
  exact hdis pg hmem hpg

/-- Witness for C6: with pages 4 and 6 assigned to the writing sequence, slot
`(9, 1)` addressed by another sequence's page list `[9]` is unchanged. -/
theorem append_frame_witness :
    writeAll (fun _ _ => (0 : Int)) [((4, 0), 5), ((4, 1), 6)] 9 1 = 0 :=
  (append_frame 2 20 [5, 6] [0, 0] [0, 1] (fun _ _ => (0 : Int))
      (writeAll (fun _ _ => (0 : Int)) [((4, 0), 5), ((4, 1), 6)]) [4, 6] [0, 2] [2]
      [(4, 0), (4, 1)] (by decide) rfl).2 [9] (by decide) 9 (by decide) 1

/-- C7: appending the same batch again — as the script does across its three
warmup calls and three profiling calls — leaves the pool in the state of a
single append: every slot already holds the last value written to it, so the
repeat write replaces contents with the same values (last-write-wins). -/
theorem append_idempotent {α : Type} (pageSize maxPages : Nat) (kvs : List α)
    (bis poss : List Nat) (pool q : Pool α) (pages ip lpl : List Nat)
    (hap : append_paged_kv_cache pageSize maxPages kvs bis poss pool pages ip lpl =
      some q) :
    append_paged_kv_cache pageSize maxPages kvs bis poss q pages ip lpl = some q := by
  simp only [append_paged_kv_cache] at hap ⊢
  cases hts : resolveTargets pageSize maxPages pages ip (bis.zip poss) with
  | none => rw [hts] at hap; simp at hap
  | some ts =>
    rw [hts] at hap
    simp only [Option.map_some', Option.some.injEq] at hap
    rw [Option.map_some', ← hap, writeAll_writeAll]

/-- Witness for C7: repeating a concrete two-token append returns the pool of
the first append unchanged. -/
theorem append_idempotent_witness :
    append_paged_kv_cache 4 8 [2, 3] [0, 0] [0, 1] (fun _ _ => (0 : Int)) [5, 1]
      [0, 2] [2] =
      some (writeAll (fun _ _ => (0 : Int)) [((5, 0), 2), ((5, 1), 3)]) ∧
    append_paged_kv_cache 4 8 [2, 3] [0, 0] [0, 1]
      (writeAll (fun _ _ => (0 : Int)) [((5, 0), 2), ((5, 1), 3)]) [5, 1] [0, 2] [2] =
      some (writeAll (fun _ _ => (0 : Int)) [((5, 0), 2), ((5, 1), 3)]) :=
  ⟨rfl,
   append_idempotent 4 8 [2, 3] [0, 0] [0, 1] (fun _ _ => (0 : Int))
     (writeAll (fun _ _ => (0 : Int)) [((5, 0), 2), ((5, 1), 3)]) [5, 1] [0, 2] [2]
     rfl⟩

/-- C9: any prefix of a permutation of `0 .. max_num_pages - 1` — as produced
by `randperm(max_num_pages)[:num_pages_needed]` — consists of pairwise
distinct page indices, all within pool bounds, so the pool's asserted bounds
precondition and the allocator-uniqueness precondition hold for the run. -/
theorem kv_page_indices_valid (perm : List Nat)
    (hperm : perm.Perm (List.range max_num_pages)) :
    (kv_page_indices perm).Nodup ∧
    ∀ x ∈ kv_page_indices perm, x < max_num_pages := by
  have hnd : perm.Nodup := hperm.nodup_iff.mpr (List.nodup_range max_num_pages)
  refine ⟨hnd.sublist (List.take_sublist num_pages_needed perm), fun x hx => ?_⟩
  have hxp : x ∈ perm := List.mem_of_mem_take hx
  exact List.mem_range.mp (hperm.subset hxp)

/-- Witness for C9 at the identity permutation of the pool's page indices. -/
theorem kv_page_indices_valid_witness :
    (List.range max_num_pages).Perm (List.range max_num_pages) ∧
    (kv_page_indices (List.range max_num_pages)).Nodup ∧
    ∀ x ∈ kv_page_indices (List.range max_num_pages), x < max_num_pages :=
  ⟨List.Perm.refl _,
   (kv_page_indices_valid (List.range max_num_pages) (List.Perm.refl _)).1,
   (kv_page_indices_valid (List.range max_num_pages) (List.Perm.refl _)).2⟩

/-- C10: the append engine is deterministic in its inputs: any two complete
executions from identical payloads, batch indices, positions, page table and
initial pool — even processing tokens in different orders — produce identical
pools, which is what makes the script's repeated warmup and profiling
invocations interchangeable measurements. -/
theorem append_deterministic {α : Type} (pageSize maxPages : Nat) (kvs : List α)
    (bis poss pages ip : List Nat) (pool q1 q2 : Pool α)
    (hok : ∀ ts, resolveTargets pageSize maxPages pages ip (bis.zip poss) = some ts →
      ts.Nodup ∧ ts.length ≤ kvs.length)
    (h1 : AppendExec pageSize maxPages kvs bis poss pages ip pool q1)
    (h2 : AppendExec pageSize maxPages kvs bis poss pages ip pool q2) :
    q1 = q2 := by
  obtain ⟨ts1, w1, hr1, hp1, he1⟩ := h1
  obtain ⟨ts2, w2, hr2, hp2, he2⟩ := h2
  rw [hr1] at hr2
  obtain rfl : ts1 = ts2 := Option.some.inj hr2
  obtain ⟨hnd, hlen⟩ := hok ts1 hr1
  have hndfst : ((ts1.zip kvs).map Prod.fst).Nodup := by
    rw [List.map_fst_zip ts1 kvs hlen]
    exact hnd
  rw [he1, he2, ← writeAll_perm hp1 hndfst pool, ← writeAll_perm hp2 hndfst pool]

/-- Witness for C10: two executions of a concrete append, processing the two
tokens in opposite orders, produce the same pool. -/
theorem append_deterministic_witness :
    writeAll (fun _ _ => (0 : Int)) [((7, 0), 1), ((7, 1), 2)] =
      writeAll (fun _ _ => (0 : Int)) [((7, 1), 2), ((7, 0), 1)] :=
  append_deterministic 2 30 [1, 2] [0, 0] [0, 1] [7, 3] [0, 2]
    (fun _ _ => (0 : Int))
    (writeAll (fun _ _ => (0 : Int)) [((7, 0), 1), ((7, 1), 2)])
    (writeAll (fun _ _ => (0 : Int)) [((7, 1), 2), ((7, 0), 1)])
    (fun ts h => by
      have hts : [(7, 0), (7, 1)] = ts :=
        Option.some.inj ((by decide :
          resolveTargets 2 30 [7, 3] [0, 2] ([0, 0].zip [0, 1]) =
            some [(7, 0), (7, 1)]).symm.trans h)
      subst hts
      exact ⟨by decide, by decide⟩)
    ⟨[(7, 0), (7, 1)], [((7, 0), 1), ((7, 1), 2)], by decide, List.Perm.refl _, rfl⟩
    ⟨[(7, 0), (7, 1)], [((7, 1), 2), ((7, 0), 1)], by decide,
      List.Perm.swap ((7, 1), 2) ((7, 0), 1) [], rfl⟩

end PagedKV
